import Mathlib

/-!
Shallow embedding of `Seq2Seq/py/data_utils.py` and verification of its
specification.  Python dictionaries are modelled as insertion-ordered
association lists (`dset` appends a fresh key at the end, exactly like a
Python dict records insertion order); file contents are modelled as lists
of lines; floating point weights are modelled as real numbers and the
exact rational attention values as rationals.
-/

namespace DataUtils

/-- Lookup in an association list: value at the first pair whose key is `k`. -/
def dget? {K V : Type} [DecidableEq K] (d : List (K × V)) (k : K) : Option V :=
  (d.find? (fun p => decide (p.1 = k))).map Prod.snd

/-- Membership test of a key, mirroring the Python `k in d`. -/
def dmem {K V : Type} [DecidableEq K] (d : List (K × V)) (k : K) : Bool :=
  (dget? d k).isSome

/-- Lookup with a default value, mirroring the Python `d.get(k, v0)`. -/
def dgetD {K V : Type} [DecidableEq K] (d : List (K × V)) (k : K) (v0 : V) : V :=
  (dget? d k).getD v0

/-- Store `d[k] = v`: update the entry in place when the key is present,
append a new entry at the end otherwise (Python dicts keep insertion order). -/
def dset {K V : Type} [DecidableEq K] (d : List (K × V)) (k : K) (v : V) : List (K × V) :=
  if dmem d k then d.map (fun p => if p.1 = k then (k, v) else p) else d ++ [(k, v)]

/-- Keys of the dictionary, in insertion order. -/
def dkeys {K V : Type} (d : List (K × V)) : List K := d.map Prod.fst

section DictLemmas

variable {K V : Type} [DecidableEq K]

theorem dget?_nil (k : K) : dget? ([] : List (K × V)) k = none := rfl

theorem dget?_cons (p : K × V) (d : List (K × V)) (k : K) :
    dget? (p :: d) k = if p.1 = k then some p.2 else dget? d k := by
  by_cases h : p.1 = k <;> simp [dget?, List.find?_cons, h]

theorem dmem_eq_false_iff (d : List (K × V)) (k : K) :
    dmem d k = false ↔ dget? d k = none := by
  unfold dmem
  cases h : dget? d k <;> simp

theorem dmem_cons (p : K × V) (d : List (K × V)) (k : K) :
    dmem (p :: d) k = if p.1 = k then true else dmem d k := by
  by_cases h : p.1 = k <;> simp [dmem, dget?_cons, h]

theorem find?_map_update_self (d : List (K × V)) (k : K) (v : V)
    (h : dmem d k = true) :
    (d.map (fun p => if p.1 = k then (k, v) else p)).find?
      (fun p => decide (p.1 = k)) = some (k, v) := by
  induction d with
  | nil => simp [dmem, dget?] at h
  | cons p d ih =>
    by_cases hp : p.1 = k
    · simp [List.find?_cons, hp]
    · have h' : dmem d k = true := by
        rw [dmem_cons] at h
        simpa [hp] using h
      simp [List.find?_cons, hp, ih h']

theorem find?_map_update_ne (d : List (K × V)) (k k' : K) (v : V)
    (h : k' ≠ k) :
    (d.map (fun p => if p.1 = k then (k, v) else p)).find?
      (fun p => decide (p.1 = k')) = d.find? (fun p => decide (p.1 = k')) := by
  induction d with
  | nil => simp
  | cons p d ih =>
    by_cases hp : p.1 = k
    · have hk : ¬ (k = k') := fun hh => h hh.symm
      have hp' : ¬ p.1 = k' := by rw [hp]; exact hk
      simp [List.find?_cons, hp, hp', hk, ih]
    · by_cases hp' : p.1 = k'
      · simp [List.find?_cons, hp, hp', h]
      · simp [List.find?_cons, hp, hp', ih]

theorem dget?_dset (d : List (K × V)) (k k' : K) (v : V) :
    dget? (dset d k v) k' = if k' = k then some v else dget? d k' := by
  unfold dset
  by_cases hm : dmem d k
  · by_cases h : k' = k
    · subst h
      simp [dget?, hm, find?_map_update_self d k' v hm]
    · simp [dget?, hm, h, find?_map_update_ne d k k' v h]
  · have hfind : d.find? (fun p => decide (p.1 = k)) = none := by
      have hnone : dget? d k = none := (dmem_eq_false_iff d k).mp (by simpa using hm)
      unfold dget? at hnone
      exact Option.map_eq_none'.mp hnone
    by_cases h : k' = k
    · subst h
      simp [hm, dget?, List.find?_append, hfind, List.find?_cons]
    · have hsing : List.find? (fun p => decide (p.1 = k')) [(k, v)] = none := by
        have hk : ¬ (k = k') := fun hh => h hh.symm
        simp [List.find?_cons, hk]
      simp [hm, dget?, List.find?_append, hsing, h]

theorem dget?_dset_self (d : List (K × V)) (k : K) (v : V) :
    dget? (dset d k v) k = some v := by
  simp [dget?_dset]

theorem dmem_iff_mem_dkeys (d : List (K × V)) (k : K) :
    dmem d k = true ↔ k ∈ dkeys d := by
  induction d with
  | nil => simp [dmem, dget?, dkeys]
  | cons p d ih =>
    by_cases hp : p.1 = k
    · simp [dmem_cons, hp, dkeys, List.mem_cons]
    · have hstep : dmem (p :: d) k = dmem d k := by simp [dmem_cons, hp]
      rw [hstep, ih]
      simp only [dkeys, List.map_cons, List.mem_cons]
      constructor
      · intro hk
        right
        simpa [dkeys] using hk
      · rintro (hk | hk)
        · exact absurd hk.symm hp
        · simpa [dkeys] using hk

theorem dkeys_dset (d : List (K × V)) (k : K) (v : V) :
    dkeys (dset d k v) = if dmem d k then dkeys d else dkeys d ++ [k] := by
  unfold dset
  by_cases hm : dmem d k
  · simp only [hm, if_true, dkeys, List.map_map]
    apply List.map_congr_left
    intro p _
    by_cases hp : p.1 = k <;> simp [Function.comp, hp]
  · simp [hm, dkeys]

theorem dset_subset (d : List (K × V)) (k : K) (v : V) :
    ∀ p ∈ dset d k v, p = (k, v) ∨ (p ∈ d ∧ p.1 ≠ k) := by
  intro p hp
  unfold dset at hp
  by_cases hm : dmem d k
  · simp only [hm, if_true, List.mem_map] at hp
    rcases hp with ⟨q, hq, hqe⟩
    by_cases hqk : q.1 = k
    · left
      simp only [hqk, if_true] at hqe
      exact hqe.symm
    · right
      simp only [hqk, if_false] at hqe
      exact ⟨hqe ▸ hq, hqe ▸ hqk⟩
  · simp only [hm, Bool.false_eq_true, if_false, List.mem_append, List.mem_singleton] at hp
    rcases hp with hp | hp
    · right
      refine ⟨hp, fun hk => ?_⟩
      have : dmem d k = true := (dmem_iff_mem_dkeys d k).mpr (hk ▸ List.mem_map_of_mem Prod.fst hp)
      simp [this] at hm
    · left
      exact hp

theorem dkeys_nodup_dset (d : List (K × V)) (k : K) (v : V)
    (h : (dkeys d).Nodup) : (dkeys (dset d k v)).Nodup := by
  rw [dkeys_dset]
  by_cases hm : dmem d k
  · simpa [hm] using h
  · have hk : k ∉ dkeys d := fun hh => by
      have := (dmem_iff_mem_dkeys d k).mpr hh
      simp [this] at hm
    simp only [hm, Bool.false_eq_true, if_false]
    refine List.Nodup.append h (List.nodup_singleton k) ?_
    intro a ha hb
    simp only [List.mem_singleton] at hb
    exact hk (hb ▸ ha)

theorem mem_of_dget?_eq_some (d : List (K × V)) (k : K) (v : V)
    (h : dget? d k = some v) : (k, v) ∈ d := by
  induction d with
  | nil => simp [dget?] at h
  | cons p d ih =>
    rw [dget?_cons] at h
    by_cases hp : p.1 = k
    · obtain ⟨a, b⟩ := p
      simp only at hp h
      subst hp
      simp at h
      subst h
      exact List.mem_cons_self _ _
    · simp only [hp, if_false] at h
      exact List.mem_cons_of_mem p (ih h)

theorem dget?_eq_some_of_mem_nodup (d : List (K × V)) (k : K) (v : V)
    (hnd : (dkeys d).Nodup) (h : (k, v) ∈ d) : dget? d k = some v := by
  induction d with
  | nil => simp at h
  | cons p d ih =>
    rcases List.mem_cons.mp h with h | h
    · rw [← h, dget?_cons]
      simp
    · have hk : k ∈ dkeys d := by
        have : (k, v).1 ∈ dkeys d := List.mem_map_of_mem Prod.fst h
        simpa using this
      have hnd0 : (p.1 :: dkeys d).Nodup := hnd
      have hnd' := List.nodup_cons.mp hnd0
      have hp : ¬ p.1 = k := fun hh => hnd'.1 (hh ▸ hk)
      rw [dget?_cons]
      simp only [hp, if_false]
      exact ih hnd'.2 h

theorem dkeys_subset_dset (d : List (K × V)) (k : K) (v : V) :
    ∀ a ∈ dkeys d, a ∈ dkeys (dset d k v) := by
  intro a ha
  rw [dkeys_dset]
  by_cases hm : dmem d k <;> simp [hm, ha]

end DictLemmas

end DataUtils


namespace DataUtils

/-- Text (Python byte strings) is modelled as lists of characters, so that all
operations compute by structural recursion. -/
abbrev Word := List Char

/-- Conversion helper for writing concrete words in statements. -/
def str (s : String) : Word := s.data

/-- Reserved symbol `_PAD` (source constant `_PAD`). -/
def PAD : Word := str ("_PAD")

/-- Reserved symbol `_GO`. -/
def GO : Word := str ("_GO")

/-- Reserved symbol `_EOS`. -/
def EOS : Word := str ("_EOS")

/-- Reserved symbol `_UNK`. -/
def UNK : Word := str ("_UNK")

/-- The list `_START_VOCAB = [_PAD, _GO, _EOS, _UNK]`. -/
def START_VOCAB : List Word := [PAD, GO, EOS, UNK]

def PAD_ID : Nat := 0

def GO_ID : Nat := 1

def EOS_ID : Nat := 2

def UNK_ID : Nat := 3

/-- Empty word, the default for out-of-range list indexing in statements. -/
def noWord : Word := []

/-- Helper of `basic_tokenizer`: accumulate the current (reversed) fragment and
split at whitespace, discarding empty fragments. -/
def basic_tokenizer_aux (cur : Word) : Word → List Word
  | [] => if cur = [] then [] else [cur.reverse]
  | c :: cs =>
    if c.isWhitespace then
      if cur = [] then basic_tokenizer_aux [] cs
      else cur.reverse :: basic_tokenizer_aux [] cs
    else basic_tokenizer_aux (c :: cur) cs

/-- Translation of `basic_tokenizer`: Python `sentence.strip().split()` splits a
line on runs of whitespace and discards empty fragments. -/
def basic_tokenizer (sentence : Word) : List Word :=
  basic_tokenizer_aux [] sentence

/-- Translation of `_DIGIT_RE.sub(b"0", w)`: every digit character becomes 0. -/
def digit_sub (w : Word) : Word :=
  w.map (fun c => if c.isDigit then '0' else c)

/-- Tokenizer selection: `tokenizer(line) if tokenizer else basic_tokenizer(line)`. -/
def tokensOf (tokenizer : Option (Word → List Word)) (sentence : Word) : List Word :=
  match tokenizer with
  | some t => t sentence
  | none => basic_tokenizer sentence

/-- Key under which a word is looked up: digit-normalized when the flag is set. -/
def normKey (normalize_digits : Bool) (w : Word) : Word :=
  if normalize_digits then digit_sub w else w

/-- Translation of `sentence_to_token_ids`: tokenize, optionally normalize
digits, and look every word up with default `UNK_ID`. -/
def sentence_to_token_ids (sentence : Word) (vocabulary : List (Word × Nat))
    (tokenizer : Option (Word → List Word)) (normalize_digits : Bool) : List Nat :=
  let words := tokensOf tokenizer sentence
  if normalize_digits = false then
    words.map (fun w => dgetD vocabulary w UNK_ID)
  else
    words.map (fun w => dgetD vocabulary (digit_sub w) UNK_ID)

example : basic_tokenizer (str (" a  bb a ")) = [str ("a"), str ("bb"), str ("a")] := by decide

example : sentence_to_token_ids (str ("foo bar")) [(str ("foo"), 5)] none false = [5, 3] := by
  decide

end DataUtils

namespace DataUtils

/-- Claim C8: encoding is total.  For every input line, vocabulary mapping,
tokenizer and normalization flag, `sentence_to_token_ids` returns a sequence
whose length equals the number of tokens produced by the tokenizer, and every
token whose (possibly digit-normalized) form is absent from the mapping is
encoded as `UNK_ID` (3) rather than causing an error. -/
theorem claim_C8_encoding_total (sentence : Word) (vocabulary : List (Word × Nat))
    (tokenizer : Option (Word → List Word)) (normalize_digits : Bool) :
    (sentence_to_token_ids sentence vocabulary tokenizer normalize_digits).length
        = (tokensOf tokenizer sentence).length
    ∧ ∀ i, i < (tokensOf tokenizer sentence).length →
        dget? vocabulary
            (normKey normalize_digits ((tokensOf tokenizer sentence).getD i noWord)) = none →
        (sentence_to_token_ids sentence vocabulary tokenizer normalize_digits).getD i 0
            = UNK_ID := by
  cases normalize_digits with
  | false =>
    refine ⟨by simp [sentence_to_token_ids], ?_⟩
    intro i hi hn
    have hmap : sentence_to_token_ids sentence vocabulary tokenizer false
        = (tokensOf tokenizer sentence).map (fun w => dgetD vocabulary w UNK_ID) := by
      simp [sentence_to_token_ids]
    rw [hmap, List.getD_eq_getElem _ _ (by simpa using hi), List.getElem_map]
    rw [List.getD_eq_getElem _ _ hi] at hn
    simp only [normKey, if_neg Bool.false_ne_true] at hn
    simp [dgetD, hn]
  | true =>
    refine ⟨by simp [sentence_to_token_ids], ?_⟩
    intro i hi hn
    have hmap : sentence_to_token_ids sentence vocabulary tokenizer true
        = (tokensOf tokenizer sentence).map (fun w => dgetD vocabulary (digit_sub w) UNK_ID) := by
      simp [sentence_to_token_ids]
    rw [hmap, List.getD_eq_getElem _ _ (by simpa using hi), List.getElem_map]
    rw [List.getD_eq_getElem _ _ hi] at hn
    simp only [normKey] at hn
    simp only [if_true] at hn
    simp [dgetD, hn]

/-- Witness for C8 at the line "foo bar" with vocabulary `{foo: 5}`: the token
"bar" is absent and is encoded as `UNK_ID`. -/
theorem claim_C8_witness :
    (sentence_to_token_ids (str ("foo bar")) [(str ("foo"), 5)] none false).getD 1 0 = UNK_ID :=
  (claim_C8_encoding_total (str ("foo bar")) [(str ("foo"), 5)] none false).2 1
    (by decide) (by decide)

end DataUtils

namespace DataUtils

/-- Single space, the join separator of `" ".join(words)`. -/
def spaceWord : Word := str (" ")

/-- One decoded hypothesis of the model: the tuple
`(sentences, score, attention_history)` consumed by `ids_to_tokens`. -/
structure DecodedLine where
  word_idxs : List Nat
  score : ℚ
  attention_history : List (List ℚ)
deriving DecidableEq

/-- Model of `np.argmax` on a 1-D array (after `reshape((-1))`): numpy returns
the index of the first occurrence of the maximum value; 0 on an empty array. -/
def np_argmax (l : List ℚ) : Nat :=
  match l.max? with
  | some m => l.indexOf m
  | none => 0

/-- Per-position emission loop of `ids_to_tokens` (the body of
`for i, word_idx in enumerate(word_idxs)`).  Each pair carries the original
position `i`, which indexes `attention_history`.  `word_idx == 2` (`_EOS`) hits
a `continue`; `word_idx == 3` (`_UNK`) emits either the literal `_UNK` or the
attention-aligned source word (translated through the table when possible);
any other id is looked up in the reverse vocabulary list `d`.  The Python
`ttable[w][0]` on a present key is modelled by `headI`. -/
def processWords (d : List Word) (ttable : Option (List (Word × List Word)))
    (src_row : List Word) (attention_history : List (List ℚ)) :
    List (Nat × Nat) → List Word
  | [] => []
  | (i, word_idx) :: rest =>
    if word_idx = 2 then processWords d ttable src_row attention_history rest
    else if word_idx = 3 then
      (match ttable with
        | none => UNK
        | some tt =>
          let attention_dist := attention_history.getD i []
          let attent_pos := np_argmax attention_dist
          let attent_source_word := src_row.getD attent_pos noWord
          match dget? tt attent_source_word with
          | some cands => cands.headI
          | none => attent_source_word) :: processWords d ttable src_row attention_history rest
    else d.getD word_idx noWord :: processWords d ttable src_row attention_history rest

/-- Rendering of one non-null decoded line: run the emission loop over the
enumerated ids and join the words with single spaces. -/
def renderLine (d : List Word) (ttable : Option (List (Word × List Word)))
    (src_row : List Word) (line : DecodedLine) : Word :=
  List.intercalate spaceWord
    (processWords d ttable src_row line.attention_history line.word_idxs.enum)

/-- Translation of `ids_to_tokens`: the state is the list of written output
lines together with `sent_idx`.  A null line writes an empty line and hits
`continue`, which skips the trailing `sent_idx += 1`; a non-null line is
rendered against the reversed-source row `test_source_orig_tok[sent_idx]` and
then increments `sent_idx`. -/
def idsStep (d : List Word) (ttable : Option (List (Word × List Word)))
    (test_source_orig_tok : List (List Word)) (st : List Word × Nat)
    (line : Option DecodedLine) : List Word × Nat :=
  match line with
  | none => (st.1 ++ [noWord], st.2)
  | some l =>
      (st.1 ++ [renderLine d ttable (test_source_orig_tok.getD st.2 []) l], st.2 + 1)

def ids_to_tokens (lines : List (Option DecodedLine)) (d : List Word)
    (ttable : Option (List (Word × List Word)))
    (test_source_orig_tok : List (List Word)) : List Word :=
  (lines.foldl (idsStep d ttable test_source_orig_tok) (([], 0) : List Word × Nat)).1

/-- Number of non-null entries of a prefix: the value of `sent_idx` after
processing that prefix. -/
def countSome (lines : List (Option DecodedLine)) : Nat :=
  (lines.filter (fun o => o.isSome)).length

example :
    ids_to_tokens [some ⟨[5, 7, 2, 9], 0, []⟩]
      [noWord, noWord, noWord, noWord, noWord, str ("a"), noWord, str ("b"), noWord, str ("c")]
      none [] = [str ("a b c")] := by decide

end DataUtils

namespace DataUtils

/-- Modelled from the specification's words: the source index with maximum
attention weight, ties broken by first occurrence — the first enumerated
position whose weight is greater than or equal to every weight in the row. -/
def firstMaxIdx_spec (l : List ℚ) : Nat :=
  match l.enum.find? (fun p => l.all (fun q => decide (q ≤ p.2))) with
  | some p => p.1
  | none => 0

/-- Modelled from the specification's words (section 4.7): resolution of an UNK
output position.  With no translation table the literal `_UNK` is emitted; with
a table, the first-maximum attention index selects a word of the reversed
source sequence, which is translated to the table's first candidate when the
word is a key and copied verbatim otherwise. -/
def resolveUnk_spec (ttable : Option (List (Word × List Word))) (attRow : List ℚ)
    (revSrc : List Word) : Word :=
  match ttable with
  | none => UNK
  | some tt =>
    let w := revSrc.getD (firstMaxIdx_spec attRow) noWord
    match dget? tt w with
    | some cands => cands.headI
    | none => w

theorem np_argmax_find_aux (L : List ℚ) (m : ℚ)
    (hmax : ∀ x ∈ L, ((L.all (fun q => decide (q ≤ x))) = true ↔ x = m)) :
    ∀ (xs : List ℚ) (n : Nat), m ∈ xs → (∀ x ∈ xs, x ∈ L) →
      (xs.enumFrom n).find? (fun p => L.all (fun q => decide (q ≤ p.2)))
        = some (n + xs.indexOf m, m) := by
  intro xs
  induction xs with
  | nil => intro n hm; simp at hm
  | cons x xs ih =>
    intro n hm hsub
    by_cases hx : x = m
    · subst hx
      have hpred : (L.all (fun q => decide (q ≤ x))) = true :=
        (hmax x (hsub x (List.mem_cons_self x xs))).mpr rfl
      simp [List.enumFrom, List.find?_cons, hpred, List.indexOf_cons_self]
    · have hpred : ¬ ((L.all (fun q => decide (q ≤ x))) = true) := by
        intro h
        exact hx ((hmax x (hsub x (List.mem_cons_self x xs))).mp h)
      have hm' : m ∈ xs := by
        rcases List.mem_cons.mp hm with h | h
        · exact absurd h.symm hx
        · exact h
      have hsub' : ∀ y ∈ xs, y ∈ L := fun y hy => hsub y (List.mem_cons_of_mem x hy)
      have hrec := ih (n + 1) hm' hsub'
      have hne : x ≠ m := hx
      rw [List.indexOf_cons_ne xs hne]
      simp only [List.enumFrom, List.find?_cons]
      have : (L.all fun q => decide (q ≤ x)) = false := by
        simpa using hpred
      rw [this]
      rw [hrec]
      have harith : n + 1 + xs.indexOf m = n + (xs.indexOf m + 1) := by omega
      rw [harith]

theorem np_argmax_eq_firstMaxIdx_spec (l : List ℚ) :
    np_argmax l = firstMaxIdx_spec l := by
  cases hm : l.max? with
  | none =>
    have h0 : l = [] := by simpa using hm
    subst h0
    rfl
  | some m =>
    have hmem : m ∈ l := List.max?_mem (fun a b => max_choice a b) hm
    have hle : ∀ b ∈ l, b ≤ m := (List.max?_le_iff (fun a b c => max_le_iff) hm).mp le_rfl
    have hmax : ∀ x ∈ l, ((l.all (fun q => decide (q ≤ x))) = true ↔ x = m) := by
      intro x hx
      rw [List.all_eq_true]
      constructor
      · intro h
        exact le_antisymm (hle x hx) (by simpa using h m hmem)
      · intro h
        subst h
        intro q hq
        simpa using hle q hq
    have hfind := np_argmax_find_aux l m hmax l 0 hmem (fun x hx => hx)
    have henum : l.enum = l.enumFrom 0 := rfl
    simp only [np_argmax, firstMaxIdx_spec, hm, henum, hfind]
    omega

end DataUtils

namespace DataUtils

theorem processWords_eq (d : List Word) (ttable : Option (List (Word × List Word)))
    (src_row : List Word) (att : List (List ℚ)) :
    ∀ pairs : List (Nat × Nat),
      processWords d ttable src_row att pairs
        = (pairs.filter (fun p => p.2 != 2)).map
            (fun p => if p.2 = 3 then resolveUnk_spec ttable (att.getD p.1 []) src_row
                      else d.getD p.2 noWord) := by
  intro pairs
  induction pairs with
  | nil => rfl
  | cons p rest ih =>
    obtain ⟨i, w⟩ := p
    by_cases h2 : w = 2
    · subst h2
      simpa [processWords, List.filter_cons] using ih
    · by_cases h3 : w = 3
      · subst h3
        simp only [processWords, if_neg h2, if_pos rfl, List.filter_cons]
        rw [ih]
        cases ttable with
        | none => simp [resolveUnk_spec]
        | some tt =>
            simp [resolveUnk_spec, np_argmax_eq_firstMaxIdx_spec]
      · simp [processWords, List.filter_cons, h2, h3, ih]

/-- Reverse-vocabulary list used in the concrete decoding examples: index 5
holds "a", index 7 holds "b", index 9 holds "c". -/
def dC1 : List Word :=
  [noWord, noWord, noWord, noWord, noWord, str ("a"), noWord, str ("b"), noWord, str ("c")]

/-- Counterexample to claim C1 as stated: for the ids `[5, 7, 2, 9]` with
reverseVocab mapping 5 to "a", 7 to "b", 9 to "c", `ids_to_tokens` does NOT
truncate the line at the EOS position, so the emitted line differs from "a b". -/
theorem claim_C1_counterexample :
    ids_to_tokens [some ⟨[5, 7, 2, 9], 0, []⟩] dC1 none [] ≠ [str ("a b")] := by
  decide

/-- Claim C1, amended: a position whose id equals `EOS_ID` (2) is skipped —
nothing is emitted for it — but processing of the later positions in the line
continues: the emission loop equals itself run on the pair list with all
EOS-id positions removed, and for the ids `[5, 7, 2, 9]` with reverseVocab
mapping 5 to "a", 7 to "b", 9 to "c" the emitted line is "a b c". -/
theorem claim_C1_eos_skipped :
    (∀ (d : List Word) (ttable : Option (List (Word × List Word))) (src_row : List Word)
        (att : List (List ℚ)) (pairs : List (Nat × Nat)),
      processWords d ttable src_row att pairs
        = processWords d ttable src_row att (pairs.filter (fun p => p.2 != 2)))
    ∧ ids_to_tokens [some ⟨[5, 7, 2, 9], 0, []⟩] dC1 none [] = [str ("a b c")] := by
  constructor
  · intro d tt src att pairs
    induction pairs with
    | nil => rfl
    | cons p rest ih =>
      obtain ⟨i, w⟩ := p
      by_cases h2 : w = 2
      · subst h2
        simpa [processWords, List.filter_cons] using ih
      · by_cases h3 : w = 3 <;> simp [processWords, List.filter_cons, h2, h3, ih]
  · decide

/-- Claim C9: for every output position decoded as `UNK_ID` (3), the emission
loop emits exactly the specification's resolution: the literal `_UNK` when no
translation table is supplied, and otherwise the first-maximum-attention
source word of the reversed source row, translated through the table's first
candidate when present and copied verbatim otherwise (non-EOS non-UNK ids are
looked up in the reverse vocabulary).  The specification's two concrete cases
follow: ids `[3]` with attention row `[0.1, 0.8, 0.1]` and reversed source
`["x", "y", "z"]` give `_UNK` without a table and "z2" with the table
`{y: [z2]}`. -/
theorem claim_C9_unk_substitution :
    (∀ (d : List Word) (ttable : Option (List (Word × List Word))) (src_row : List Word)
        (att : List (List ℚ)) (ids : List Nat),
      processWords d ttable src_row att ids.enum
        = (ids.enum.filter (fun p => p.2 != 2)).map
            (fun p => if p.2 = 3 then resolveUnk_spec ttable (att.getD p.1 []) src_row
                      else d.getD p.2 noWord))
    ∧ ids_to_tokens [some ⟨[3], 0, [[mkRat 1 10, mkRat 8 10, mkRat 1 10]]⟩] START_VOCAB none
        [[str ("x"), str ("y"), str ("z")]] = [UNK]
    ∧ ids_to_tokens [some ⟨[3], 0, [[mkRat 1 10, mkRat 8 10, mkRat 1 10]]⟩] START_VOCAB
        (some [(str ("y"), [str ("z2")])]) [[str ("x"), str ("y"), str ("z")]]
        = [str ("z2")] := by
  refine ⟨fun d tt src att ids => processWords_eq d tt src att ids.enum, by decide, ?_⟩
  rw [ids_to_tokens]
  simp only [List.foldl_cons, List.foldl_nil, idsStep, renderLine, processWords_eq]
  decide

end DataUtils

namespace DataUtils

/-- Declarative unfolding of the `ids_to_tokens` loop: output lines produced
from a given value of `sent_idx`. -/
def idsOut (d : List Word) (ttable : Option (List (Word × List Word)))
    (src : List (List Word)) : Nat → List (Option DecodedLine) → List Word
  | _, [] => []
  | n, none :: rest => noWord :: idsOut d ttable src n rest
  | n, some l :: rest =>
      renderLine d ttable (src.getD n []) l :: idsOut d ttable src (n + 1) rest

theorem countSome_nil : countSome [] = 0 := rfl

theorem countSome_cons_none (rest : List (Option DecodedLine)) :
    countSome (none :: rest) = countSome rest := by
  simp [countSome, List.filter_cons]

theorem countSome_cons_some (l : DecodedLine) (rest : List (Option DecodedLine)) :
    countSome (some l :: rest) = countSome rest + 1 := by
  simp [countSome, List.filter_cons]

theorem ids_to_tokens_foldl (d : List Word) (ttable : Option (List (Word × List Word)))
    (src : List (List Word)) :
    ∀ (lines : List (Option DecodedLine)) (acc : List Word) (n : Nat),
      (lines.foldl (idsStep d ttable src) (acc, n)).1 = acc ++ idsOut d ttable src n lines := by
  intro lines
  induction lines with
  | nil => intro acc n; simp [idsOut]
  | cons o rest ih =>
    intro acc n
    cases o with
    | none =>
      simp only [List.foldl_cons, idsStep, idsOut]
      rw [ih]
      simp
    | some l =>
      simp only [List.foldl_cons, idsStep, idsOut]
      rw [ih]
      simp

theorem ids_to_tokens_eq_idsOut (lines : List (Option DecodedLine)) (d : List Word)
    (ttable : Option (List (Word × List Word))) (src : List (List Word)) :
    ids_to_tokens lines d ttable src = idsOut d ttable src 0 lines := by
  unfold ids_to_tokens
  rw [ids_to_tokens_foldl d ttable src lines [] 0]
  simp

theorem idsOut_length (d : List Word) (ttable : Option (List (Word × List Word)))
    (src : List (List Word)) :
    ∀ (lines : List (Option DecodedLine)) (n : Nat),
      (idsOut d ttable src n lines).length = lines.length := by
  intro lines
  induction lines with
  | nil => intro n; rfl
  | cons o rest ih =>
    intro n
    cases o <;> simp [idsOut, ih]

theorem idsOut_getD (d : List Word) (ttable : Option (List (Word × List Word)))
    (src : List (List Word)) :
    ∀ (lines : List (Option DecodedLine)) (n k : Nat), k < lines.length →
      (idsOut d ttable src n lines).getD k noWord
        = match lines.getD k none with
          | none => noWord
          | some l => renderLine d ttable (src.getD (n + countSome (lines.take k)) []) l := by
  intro lines
  induction lines with
  | nil => intro n k hk; simp at hk
  | cons o rest ih =>
    intro n k hk
    cases o with
    | none =>
      cases k with
      | zero => simp [idsOut, countSome_nil]
      | succ k =>
        have hk' : k < rest.length := by simpa using hk
        simp only [idsOut, List.getD_cons_succ, List.take_succ_cons, countSome_cons_none]
        exact ih n k hk'
    | some l =>
      cases k with
      | zero => simp [idsOut, countSome_nil]
      | succ k =>
        have hk' : k < rest.length := by simpa using hk
        simp only [idsOut, List.getD_cons_succ, List.take_succ_cons, countSome_cons_some]
        rw [ih (n + 1) k hk']
        have harith : n + 1 + countSome (rest.take k) = n + (countSome (rest.take k) + 1) := by
          omega
        rw [harith]

/-- Claim C10: in `ids_to_tokens` the sentence index selecting the reversed
source row counts only the non-null lines processed so far: a null input line
produces an empty output line without advancing the index, and every non-null
line at position `k` is rendered against the source row whose index equals the
number of non-null lines among the first `k` input lines. -/
theorem claim_C10_sent_idx_counts_nonnull (lines : List (Option DecodedLine))
    (d : List Word) (ttable : Option (List (Word × List Word))) (src : List (List Word)) :
    (ids_to_tokens lines d ttable src).length = lines.length
    ∧ ∀ k, k < lines.length →
        (lines.getD k none = none → (ids_to_tokens lines d ttable src).getD k noWord = noWord)
        ∧ ∀ l, lines.getD k none = some l →
            (ids_to_tokens lines d ttable src).getD k noWord
              = renderLine d ttable (src.getD (countSome (lines.take k)) []) l := by
  rw [ids_to_tokens_eq_idsOut]
  refine ⟨idsOut_length d ttable src lines 0, ?_⟩
  intro k hk
  have h := idsOut_getD d ttable src lines 0 k hk
  constructor
  · intro hnone
    rw [h, hnone]
  · intro l hsome
    rw [h, hsome]
    simp

/-- Decoded line used in the C10 witness. -/
def lineA : DecodedLine := ⟨[5], 0, []⟩

/-- Second decoded line used in the C10 witness. -/
def lineB : DecodedLine := ⟨[7], 0, []⟩

/-- Witness for C10: with input `[some lineA, none, some lineB]` the third line
is rendered against source row number 1 (one non-null line precedes it), not
row 2 (its input position). -/
theorem claim_C10_witness :
    (ids_to_tokens [some lineA, none, some lineB] dC1 none
        [[str ("s0")], [str ("s1")]]).getD 2 noWord
      = renderLine dC1 none
          ([[str ("s0")], [str ("s1")]].getD
            (countSome ([some lineA, none, some lineB].take 2)) []) lineB :=
  ((claim_C10_sent_idx_counts_nonnull [some lineA, none, some lineB] dC1 none
      [[str ("s0")], [str ("s1")]]).2 2 (by decide)).2 lineB (by decide)

end DataUtils

namespace DataUtils

/-- Inner update of `frequency` for one id:
`if word not in d: d[word] = 0` followed by `d[word] += 1`. -/
def freqWordStep (d : List (Int × Nat)) (word : Int) : List (Int × Nat) :=
  let d1 := if dmem d word then d else dset d word 0
  dset d1 word (dgetD d1 word 0 + 1)

/-- One line of `frequency`: `d[2] += 1` (the synthetic EOS count) and then
every id of the line is counted. -/
def freqLine (d : List (Int × Nat)) (words : List Int) : List (Int × Nat) :=
  words.foldl freqWordStep (dset d 2 (dgetD d 2 0 + 1))

/-- Translation of `frequency`: the dictionary starts as `{2: 0}` and the file
is modelled as the list of its lines of ids. -/
def frequency (lines : List (List Int)) : List (Int × Nat) :=
  lines.foldl freqLine [(2, 0)]

/-- Total count `s = sum(freq.values())` of `output_weight`. -/
def freqSum (lines : List (List Int)) : Nat :=
  ((frequency lines).map Prod.snd).sum

/-- Translation of `output_weight`: one weight-file line `(i, s*1.0/freq[i])`
per id, ids in ascending order (`sorted(freq)`); floats are modelled as exact
rationals.  The Python stable `sorted` builtin is modelled by `mergeSort`. -/
def output_weight (lines : List (List Int)) : List (Int × ℚ) :=
  ((dkeys (frequency lines)).mergeSort (fun a b => decide (a ≤ b))).map
    (fun i => (i, (freqSum lines : ℚ) / ((dgetD (frequency lines) i 0 : ℕ) : ℚ)))

example : frequency [[3, 3, 5]] = [(2, 1), (3, 2), (5, 1)] := by decide

theorem frequency_keys_nodup (lines : List (List Int)) :
    (dkeys (frequency lines)).Nodup := by
  unfold frequency
  have hinit : (dkeys [((2 : Int), 0)]).Nodup := by decide
  generalize hd : [((2 : Int), 0)] = d0 at hinit ⊢
  clear hd
  induction lines generalizing d0 with
  | nil => exact hinit
  | cons l rest ih =>
    rw [List.foldl_cons]
    apply ih
    unfold freqLine
    have h1 : (dkeys (dset d0 2 (dgetD d0 2 0 + 1))).Nodup :=
      dkeys_nodup_dset d0 2 _ hinit
    generalize hd : dset d0 2 (dgetD d0 2 0 + 1) = d1 at h1 ⊢
    clear hd
    induction l generalizing d1 with
    | nil => exact h1
    | cons w ws ihw =>
      rw [List.foldl_cons]
      apply ihw
      unfold freqWordStep
      by_cases hm : dmem d1 w
      · simp only [hm, if_true]
        exact dkeys_nodup_dset _ w _ h1
      · simp only [hm, Bool.false_eq_true, if_false]
        exact dkeys_nodup_dset _ w _ (dkeys_nodup_dset d1 w 0 h1)

theorem freqWordStep_pos (d : List (Int × Nat)) (w : Int)
    (h : ∀ p ∈ d, 0 < p.2) : ∀ p ∈ freqWordStep d w, 0 < p.2 := by
  intro p hp
  unfold freqWordStep at hp
  rcases dset_subset _ w _ p hp with he | ⟨hpd, hpk⟩
  · rw [he]
    simp
  · by_cases hm : dmem d w
    · simp only [hm, if_true] at hpd
      exact h p hpd
    · simp only [hm, Bool.false_eq_true, if_false] at hpd
      rcases dset_subset d w 0 p hpd with he' | ⟨hpd', _⟩
      · exact absurd (by rw [he']) hpk
      · exact h p hpd'

theorem freqLine_pos (d : List (Int × Nat)) (words : List Int)
    (h : ∀ p ∈ d, p.1 ≠ 2 → 0 < p.2) : ∀ p ∈ freqLine d words, 0 < p.2 := by
  unfold freqLine
  have hstart : ∀ p ∈ dset d 2 (dgetD d 2 0 + 1), 0 < p.2 := by
    intro p hp
    rcases dset_subset d 2 _ p hp with he | ⟨hpd, hpk⟩
    · rw [he]
      simp
    · exact h p hpd hpk
  generalize hd : dset d 2 (dgetD d 2 0 + 1) = d1 at hstart ⊢
  clear hd
  induction words generalizing d1 with
  | nil => exact hstart
  | cons w ws ihw =>
    rw [List.foldl_cons]
    exact ihw (freqWordStep d1 w) (freqWordStep_pos d1 w hstart)

theorem frequency_pos (lines : List (List Int)) (h : lines ≠ []) :
    ∀ p ∈ frequency lines, 0 < p.2 := by
  unfold frequency
  cases lines with
  | nil => exact absurd rfl h
  | cons l rest =>
    rw [List.foldl_cons]
    have h1 : ∀ p ∈ freqLine [((2 : Int), 0)] l, 0 < p.2 := by
      apply freqLine_pos
      intro p hp hk
      simp only [List.mem_singleton] at hp
      exact absurd (by rw [hp]) hk
    clear h
    generalize hd : freqLine [((2 : Int), 0)] l = d1 at h1 ⊢
    clear hd
    induction rest generalizing d1 with
    | nil => exact h1
    | cons l2 rest2 ih =>
      rw [List.foldl_cons]
      apply ih
      apply freqLine_pos
      intro p hp _
      exact h1 p hp

end DataUtils

namespace DataUtils

theorem dkeys_subset_freqWordStep (d : List (Int × Nat)) (w : Int) :
    ∀ a ∈ dkeys d, a ∈ dkeys (freqWordStep d w) := by
  intro a ha
  unfold freqWordStep
  apply dkeys_subset_dset
  by_cases hm : dmem d w
  · simpa [hm] using ha
  · simp only [hm, Bool.false_eq_true, if_false]
    exact dkeys_subset_dset d w 0 a ha

theorem dkeys_subset_freqLine (d : List (Int × Nat)) (words : List Int) :
    ∀ a ∈ dkeys d, a ∈ dkeys (freqLine d words) := by
  intro a ha
  unfold freqLine
  have h1 : a ∈ dkeys (dset d 2 (dgetD d 2 0 + 1)) := dkeys_subset_dset d 2 _ a ha
  generalize hd : dset d 2 (dgetD d 2 0 + 1) = d1 at h1 ⊢
  clear hd
  induction words generalizing d1 with
  | nil => exact h1
  | cons w ws ihw =>
    rw [List.foldl_cons]
    exact ihw (freqWordStep d1 w) (dkeys_subset_freqWordStep d1 w a h1)

theorem mem_two_frequency (lines : List (List Int)) :
    2 ∈ dkeys (frequency lines) := by
  unfold frequency
  have hinit : (2 : Int) ∈ dkeys [((2 : Int), 0)] := by decide
  generalize hd : [((2 : Int), 0)] = d0 at hinit ⊢
  clear hd
  induction lines generalizing d0 with
  | nil => exact hinit
  | cons l rest ih =>
    rw [List.foldl_cons]
    exact ih (freqLine d0 l) (dkeys_subset_freqLine d0 l 2 hinit)

theorem snd_le_values_sum (d : List (Int × Nat)) :
    ∀ p ∈ d, p.2 ≤ (d.map Prod.snd).sum := by
  intro p hp
  induction d with
  | nil => simp at hp
  | cons q rest ih =>
    rcases List.mem_cons.mp hp with h | h
    · rw [h]
      simp only [List.map_cons, List.sum_cons]
      omega
    · have := ih h
      simp only [List.map_cons, List.sum_cons]
      omega

theorem freqSum_pos (lines : List (List Int)) (h : lines ≠ []) :
    0 < freqSum lines := by
  have h2 := mem_two_frequency lines
  rcases List.mem_map.mp h2 with ⟨p, hp, hp2⟩
  have hpos := frequency_pos lines h p hp
  have hle := snd_le_values_sum (frequency lines) p hp
  unfold freqSum
  omega

theorem mem_output_weight (lines : List (List Int)) (p : Int × ℚ)
    (hp : p ∈ output_weight lines) :
    p.1 ∈ dkeys (frequency lines)
    ∧ p.2 = (freqSum lines : ℚ) / ((dgetD (frequency lines) p.1 0 : ℕ) : ℚ) := by
  unfold output_weight at hp
  rcases List.mem_map.mp hp with ⟨i, hi, hie⟩
  have hik : i ∈ dkeys (frequency lines) :=
    (List.mergeSort_perm (dkeys (frequency lines)) (fun a b => decide (a ≤ b))).mem_iff.mp hi
  rw [← hie]
  exact ⟨hik, rfl⟩

theorem dgetD_pos_of_mem_keys (lines : List (List Int)) (h : lines ≠ []) (i : Int)
    (hik : i ∈ dkeys (frequency lines)) :
    0 < dgetD (frequency lines) i 0
    ∧ dgetD (frequency lines) i 0 ≤ freqSum lines := by
  rcases List.mem_map.mp hik with ⟨p, hp, hpi⟩
  obtain ⟨a, v⟩ := p
  simp only at hpi
  subst hpi
  have hget : dget? (frequency lines) a = some v :=
    dget?_eq_some_of_mem_nodup _ a v (frequency_keys_nodup lines) hp
  have hdg : dgetD (frequency lines) a 0 = v := by simp [dgetD, hget]
  rw [hdg]
  exact ⟨frequency_pos lines h (a, v) hp, snd_le_values_sum _ (a, v) hp⟩

/-- Claim C4: the frequency analyzer counts every id of the encoded corpus plus
one synthetic EOS count (id 2) per line and assigns `weight(id) = total /
count(id)`: concretely, for the one-line corpus "3 3 5" the counts are
`{2: 1, 3: 2, 5: 1}` and the weights are `{2: 4, 3: 2, 5: 4}`; in general, for
a nonempty corpus, ids with strictly smaller counts receive strictly larger
weights and every weight is at least 1. -/
theorem claim_C4_frequency_weights (lines : List (List Int)) (h : lines ≠ []) :
    (∀ p ∈ output_weight lines, 1 ≤ p.2)
    ∧ (∀ p q, p ∈ output_weight lines → q ∈ output_weight lines →
        dgetD (frequency lines) p.1 0 < dgetD (frequency lines) q.1 0 → q.2 < p.2)
    ∧ frequency [[3, 3, 5]] = [(2, 1), (3, 2), (5, 1)]
    ∧ output_weight [[3, 3, 5]] = [(2, 4), (3, 2), (5, 4)] := by
  have hs : 0 < freqSum lines := freqSum_pos lines h
  have hsQ : (0 : ℚ) < (freqSum lines : ℚ) := by exact_mod_cast hs
  refine ⟨?_, ?_, ?_, ?_⟩
  · intro p hp
    obtain ⟨hik, hval⟩ := mem_output_weight lines p hp
    obtain ⟨hpos, hle⟩ := dgetD_pos_of_mem_keys lines h p.1 hik
    have hposQ : (0 : ℚ) < ((dgetD (frequency lines) p.1 0 : ℕ) : ℚ) := by
      exact_mod_cast hpos
    rw [hval, one_le_div hposQ]
    exact_mod_cast hle
  · intro p q hp hq hlt
    obtain ⟨hikp, hvalp⟩ := mem_output_weight lines p hp
    obtain ⟨hikq, hvalq⟩ := mem_output_weight lines q hq
    obtain ⟨hposp, _⟩ := dgetD_pos_of_mem_keys lines h p.1 hikp
    obtain ⟨hposq, _⟩ := dgetD_pos_of_mem_keys lines h q.1 hikq
    rw [hvalp, hvalq]
    rw [div_lt_div_iff_of_pos_left hsQ (by exact_mod_cast hposq) (by exact_mod_cast hposp)]
    exact_mod_cast hlt
  · decide
  · have hfreq : frequency [[3, 3, 5]] = [(2, 1), (3, 2), (5, 1)] := by decide
    have hsum : freqSum [[3, 3, 5]] = 4 := by decide
    unfold output_weight
    rw [hfreq, hsum]
    have hkeys : dkeys [((2 : Int), 1), (3, 2), (5, 1)] = [2, 3, 5] := rfl
    rw [hkeys]
    rw [List.mergeSort_of_sorted (by decide)]
    have h2 : dgetD [((2 : Int), 1), (3, 2), (5, 1)] 2 0 = 1 := by decide
    have h3 : dgetD [((2 : Int), 1), (3, 2), (5, 1)] 3 0 = 2 := by decide
    have h5 : dgetD [((2 : Int), 1), (3, 2), (5, 1)] 5 0 = 1 := by decide
    simp only [List.map_cons, List.map_nil, h2, h3, h5]
    norm_num

/-- Witness for C4 at the corpus "3 3 5". -/
theorem claim_C4_witness :
    ([[3, 3, 5]] : List (List Int)) ≠ []
    ∧ frequency [[3, 3, 5]] = [(2, 1), (3, 2), (5, 1)]
    ∧ output_weight [[3, 3, 5]] = [(2, 4), (3, 2), (5, 4)] :=
  ⟨by decide, (claim_C4_frequency_weights [[3, 3, 5]] (by decide)).2.2.1,
    (claim_C4_frequency_weights [[3, 3, 5]] (by decide)).2.2.2⟩

end DataUtils

namespace DataUtils

/-- Raw weight of one table entry: `np.power(vocab_weights[w], alpha)` or, in
log mode, `np.power(np.log(vocab_weights[w]), alpha)`; numpy float powers with
float exponents are modelled as real powers. -/
noncomputable def rawWeight (log_weight : Bool) (alpha : ℝ) (v : ℝ) : ℝ :=
  if log_weight then Real.rpow (Real.log v) alpha else Real.rpow v alpha

/-- First inner loop of `check_rare_weights` on one row: the accumulated sum
`s` of the raw weights of the ids present in the weight table. -/
noncomputable def rowRawSum (vocab_weights : List (Int × ℝ)) (alpha : ℝ)
    (log_weight : Bool) (row : List Int) : ℝ :=
  ((row.filterMap (fun w => dget? vocab_weights w)).map (rawWeight log_weight alpha)).sum

/-- The count `ns` of ids of the row that are present in the weight table. -/
def rowNs (vocab_weights : List (Int × ℝ)) (row : List Int) : Nat :=
  (row.filter (fun w => dmem vocab_weights w)).length

/-- Second inner loop of `check_rare_weights` on one row: every present id
receives `raw / s * ns`; absent ids keep the `np.zeros_like` initial value 0. -/
noncomputable def rowNewWeights (vocab_weights : List (Int × ℝ)) (alpha : ℝ)
    (log_weight : Bool) (row : List Int) : List ℝ :=
  row.map (fun w =>
    match dget? vocab_weights w with
    | some v => rawWeight log_weight alpha v / rowRawSum vocab_weights alpha log_weight row
        * (rowNs vocab_weights row : ℝ)
    | none => 0)

/-- Translation of `check_rare_weights`: the effective exponent is
`np.power(alpha_decay, n_decay) * alpha` and each batch row is reweighted
independently. -/
noncomputable def check_rare_weights (target_outputs : List (List Int))
    (vocab_weights : List (Int × ℝ)) (alpha : ℝ) (log_weight : Bool)
    (alpha_decay : ℝ) (n_decay : Nat) : List (List ℝ) :=
  target_outputs.map
    (rowNewWeights vocab_weights (alpha_decay ^ n_decay * alpha) log_weight)

theorem zip_filter_sum (vw : List (Int × ℝ)) (a s ns : ℝ) :
    ∀ row : List Int,
      ((((row.zip (row.map (fun w =>
            match dget? vw w with
            | some v => rawWeight false a v / s * ns
            | none => 0)))).filter (fun pc => dmem vw pc.1)).map Prod.snd).sum
        = rowRawSum vw a false row / s * ns := by
  intro row
  induction row with
  | nil =>
    simp [rowRawSum]
  | cons w row ih =>
    by_cases hm : dmem vw w
    · rcases Option.isSome_iff_exists.mp (by simpa [dmem] using hm) with ⟨v, hv⟩
      simp only [List.map_cons, List.zip_cons_cons, List.filter_cons, hm, if_true,
        List.map_cons, List.sum_cons, hv]
      rw [ih]
      have hraw : rowRawSum vw a false (w :: row)
          = rawWeight false a v + rowRawSum vw a false row := by
        simp [rowRawSum, List.filterMap_cons, hv]
      rw [hraw]
      ring
    · have hv : dget? vw w = none := (dmem_eq_false_iff vw w).mp (by simpa using hm)
      simp only [List.map_cons, List.zip_cons_cons, List.filter_cons, hm,
        Bool.false_eq_true, if_false, hv]
      rw [ih]
      have hraw : rowRawSum vw a false (w :: row) = rowRawSum vw a false row := by
        simp [rowRawSum, List.filterMap_cons, hv]
      rw [hraw]

/-- Claim C3: for every batch row passed to `check_rare_weights` that contains
at least one column with an id present in the weight table, with
`log_weight = false` and a nonzero raw-weight sum `S`, the sum of the output
weights over the known-id columns of that row equals the number `ns` of
known-id columns exactly, and every column whose id is absent from the table
receives output weight exactly 0. -/
theorem claim_C3_row_sum_invariant (target_outputs : List (List Int))
    (vocab_weights : List (Int × ℝ)) (alpha alpha_decay : ℝ) (n_decay : Nat)
    (i : Nat) (hi : i < target_outputs.length)
    (hns : 1 ≤ rowNs vocab_weights (target_outputs.getD i []))
    (hs : rowRawSum vocab_weights (alpha_decay ^ n_decay * alpha) false
        (target_outputs.getD i []) ≠ 0) :
    (((((target_outputs.getD i []).zip
          ((check_rare_weights target_outputs vocab_weights alpha false alpha_decay
            n_decay).getD i [])).filter
        (fun pc => dmem vocab_weights pc.1)).map Prod.snd).sum
      = (rowNs vocab_weights (target_outputs.getD i []) : ℝ))
    ∧ ∀ j, j < (target_outputs.getD i []).length →
        dget? vocab_weights ((target_outputs.getD i []).getD j 0) = none →
        ((check_rare_weights target_outputs vocab_weights alpha false alpha_decay
            n_decay).getD i []).getD j 0 = 0 := by
  have hout : (check_rare_weights target_outputs vocab_weights alpha false alpha_decay
      n_decay).getD i []
      = rowNewWeights vocab_weights (alpha_decay ^ n_decay * alpha) false
          (target_outputs.getD i []) := by
    unfold check_rare_weights
    rw [List.getD_eq_getElem _ _ (by simpa using hi), List.getElem_map,
      List.getD_eq_getElem _ _ hi]
  constructor
  · rw [hout]
    unfold rowNewWeights
    rw [zip_filter_sum vocab_weights (alpha_decay ^ n_decay * alpha)
      (rowRawSum vocab_weights (alpha_decay ^ n_decay * alpha) false
        (target_outputs.getD i []))
      ((rowNs vocab_weights (target_outputs.getD i []) : ℝ))
      (target_outputs.getD i [])]
    rw [div_self hs]
    ring
  · intro j hj hnone
    rw [hout]
    unfold rowNewWeights
    rw [List.getD_eq_getElem _ _ (by simpa using hj), List.getElem_map]
    rw [List.getD_eq_getElem _ _ hj] at hnone
    split
    next v heq => exact absurd (hnone.symm.trans heq) (by simp)
    next heq => rfl

/-- Witness for C3: batch `[[5]]`, weight table `{5: 2}`, `alpha = 1`, no
decay.  The single known column receives weight `2/2*1 = 1` and the known-sum
is `ns = 1`. -/
theorem claim_C3_witness :
    (0 < ([[(5 : Int)]] : List (List Int)).length)
    ∧ (((((([[(5 : Int)]] : List (List Int)).getD 0 []).zip
          ((check_rare_weights [[(5 : Int)]] [((5 : Int), (2 : ℝ))] 1 false 1
            0).getD 0 [])).filter
        (fun pc => dmem [((5 : Int), (2 : ℝ))] pc.1)).map Prod.snd).sum
      = (rowNs [((5 : Int), (2 : ℝ))] (([[(5 : Int)]] : List (List Int)).getD 0 []) : ℝ)) := by
  have hns : 1 ≤ rowNs [((5 : Int), (2 : ℝ))] (([[(5 : Int)]] : List (List Int)).getD 0 []) := by
    simp [rowNs, dmem, dget?, List.find?, List.filter]
  have hs : rowRawSum [((5 : Int), (2 : ℝ))] ((1 : ℝ) ^ (0 : ℕ) * 1) false
      (([[(5 : Int)]] : List (List Int)).getD 0 []) ≠ 0 := by
    have hrow : (([[(5 : Int)]] : List (List Int)).getD 0 []) = [5] := rfl
    have hfm : List.filterMap (fun w => dget? [((5 : Int), (2 : ℝ))] w) [5]
        = [(2 : ℝ)] := rfl
    rw [hrow]
    unfold rowRawSum
    rw [hfm]
    simp [rawWeight, Real.rpow_one]
  exact ⟨by decide,
    (claim_C3_row_sum_invariant [[(5 : Int)]] [((5 : Int), (2 : ℝ))] 1 1 0 0
      (by decide) hns hs).1⟩

/-- Claim C5: at the degenerate input (log-weight mode, every present weight
exactly 1) the first loop of `check_rare_weights` produces the raw-weight sum
`S = 0` while a known id is present (`ns = 1`), so the second loop performs
`raw / S` with `S = 0`: the condition is not detected by the code. -/
theorem claim_C5_division_by_zero_reached :
    rowNs [((7 : Int), (1 : ℝ))] [7] = 1
    ∧ rowRawSum [((7 : Int), (1 : ℝ))] ((1 : ℝ) ^ (0 : ℕ) * 1) true [7] = 0 := by
  constructor
  · simp [rowNs, dmem, dget?, List.find?, List.filter]
  · have hfm : List.filterMap (fun w => dget? [((7 : Int), (1 : ℝ))] w) [7]
        = [(1 : ℝ)] := rfl
    unfold rowRawSum
    rw [hfm]
    simp [rawWeight, Real.log_one, Real.rpow_one]

end DataUtils

namespace DataUtils

/-- Inner count update of `create_vocabulary`:
`if word in vocab: vocab[word] += 1 else: vocab[word] = 1`. -/
def vocabAddWord (vocab : List (Word × Nat)) (word : Word) : List (Word × Nat) :=
  match dget? vocab word with
  | some c => dset vocab word (c + 1)
  | none => dset vocab word 1

/-- Counting pass of `create_vocabulary`: stream the lines, tokenize each one
and count every (possibly digit-normalized) token. -/
def vocabCounts (lines : List Word) (tokenizer : Option (Word → List Word))
    (normalize_digits : Bool) : List (Word × Nat) :=
  lines.foldl
    (fun vocab line =>
      (tokensOf tokenizer line).foldl
        (fun v w => vocabAddWord v (normKey normalize_digits w)) vocab)
    []

/-- Comparator of `sorted(vocab, key=vocab.get, reverse=True)`: descending
count order; the sort is stable, ties keep dictionary (first-seen) order. -/
def byCountDesc (vocab : List (Word × Nat)) (a b : Word) : Bool :=
  decide (dgetD vocab b 0 ≤ dgetD vocab a 0)

/-- The untruncated list
`vocab_list = _START_VOCAB + sorted(vocab, key=vocab.get, reverse=True)`.
The Python stable `sorted` builtin is modelled by the stable `mergeSort`. -/
def vocab_list_full (lines : List Word) (tokenizer : Option (Word → List Word))
    (normalize_digits : Bool) : List Word :=
  START_VOCAB
    ++ (dkeys (vocabCounts lines tokenizer normalize_digits)).mergeSort
        (byCountDesc (vocabCounts lines tokenizer normalize_digits))

/-- Translation of `create_vocabulary`: the vocabulary list written to the
file (one token per line), truncated to `max_vocabulary_size` when longer. -/
def create_vocabulary (lines : List Word) (max_vocabulary_size : Nat)
    (tokenizer : Option (Word → List Word)) (normalize_digits : Bool) : List Word :=
  if max_vocabulary_size < (vocab_list_full lines tokenizer normalize_digits).length then
    (vocab_list_full lines tokenizer normalize_digits).take max_vocabulary_size
  else vocab_list_full lines tokenizer normalize_digits

/-- Translation of `initialize_vocabulary` on the in-memory file contents (the
list of stripped lines): `vocab = dict([(x, y) for (y, x) in enumerate(rev_vocab)])`
— the `dict` constructor inserts the pairs left to right, later duplicates
overwriting earlier ones — and the reversed vocabulary is the line list itself. -/
def initialize_vocabulary (rev_vocab : List Word) : List (Word × Nat) × List Word :=
  ((rev_vocab.enum.map (fun p => (p.2, p.1))).foldl (fun d p => dset d p.1 p.2) [],
    rev_vocab)

/-- First index of a word in a list (`none` when absent). -/
def posOf (t : Word) : List Word → Option Nat
  | [] => none
  | w :: ws => if w = t then some 0 else (posOf t ws).map (· + 1)

theorem posOf_eq_none_of_not_mem (t : Word) :
    ∀ l : List Word, t ∉ l → posOf t l = none := by
  intro l
  induction l with
  | nil => intro _; rfl
  | cons w ws ih =>
    intro h
    have hw : ¬ w = t := fun hh => h (hh ▸ List.mem_cons_self w ws)
    have ht : t ∉ ws := fun hh => h (List.mem_cons_of_mem w hh)
    simp [posOf, hw, ih ht]

theorem posOf_of_mem (t : Word) :
    ∀ l : List Word, t ∈ l → ∃ k, posOf t l = some k := by
  intro l
  induction l with
  | nil => intro h; simp at h
  | cons w ws ih =>
    intro h
    by_cases hw : w = t
    · exact ⟨0, by simp [posOf, hw]⟩
    · rcases List.mem_cons.mp h with h | h
      · exact absurd h.symm hw
      · rcases ih h with ⟨k, hk⟩
        exact ⟨k + 1, by simp [posOf, hw, hk]⟩

theorem posOf_eq_some_of_get (t : Word) :
    ∀ (l : List Word), l.Nodup → ∀ (i : Nat) (hi : i < l.length),
      l.get ⟨i, hi⟩ = t → posOf t l = some i := by
  intro l
  induction l with
  | nil => intro _ i hi; simp at hi
  | cons w ws ih =>
    intro hnd i hi hget
    cases i with
    | zero =>
      simp only [List.get] at hget
      simp [posOf, hget]
    | succ i =>
      simp only [List.get] at hget
      have hnd' := List.nodup_cons.mp hnd
      have hi' : i < ws.length := by simpa using hi
      have htw : t ∈ ws := hget ▸ List.get_mem ws i hi'
      have hw : ¬ w = t := fun hh => hnd'.1 (hh ▸ htw)
      have := ih hnd'.2 i (by simpa using hi) hget
      simp [posOf, hw, this]

theorem get?_of_posOf (t : Word) :
    ∀ (l : List Word) (i : Nat), posOf t l = some i → l.get? i = some t := by
  intro l
  induction l with
  | nil => intro i h; simp [posOf] at h
  | cons w ws ih =>
    intro i h
    by_cases hw : w = t
    · simp only [posOf, hw, if_true, Option.some.injEq] at h
      rw [← h]
      simp [hw]
    · simp only [posOf, hw, if_false] at h
      rcases Option.map_eq_some'.mp h with ⟨k, hk, hki⟩
      rw [← hki]
      simpa using ih k hk

theorem enumFrom_foldl_dset (rv : List Word) :
    rv.Nodup → ∀ (n : Nat) (d : List (Word × Nat)) (t : Word),
      dget? (((rv.enumFrom n).map (fun p => (p.2, p.1))).foldl
          (fun d p => dset d p.1 p.2) d) t
        = match posOf t rv with
          | some k => some (n + k)
          | none => dget? d t := by
  induction rv with
  | nil => intro _ n d t; simp [posOf, List.enumFrom]
  | cons w rv ih =>
    intro hnd n d t
    have hnd' := List.nodup_cons.mp hnd
    simp only [List.enumFrom, List.map_cons, List.foldl_cons]
    rw [ih hnd'.2 (n + 1) (dset d w n) t]
    by_cases hw : w = t
    · subst hw
      have : posOf w rv = none := posOf_eq_none_of_not_mem w rv hnd'.1
      simp [posOf, this, dget?_dset]
    · simp only [posOf, hw, if_false]
      cases hp : posOf t rv with
      | none =>
        simp only [Option.map_none']
        rw [dget?_dset]
        have : ¬ t = w := fun hh => hw hh.symm
        simp [this]
      | some k =>
        simp only [Option.map_some']
        have harith : n + 1 + k = n + (k + 1) := by omega
        rw [harith]

theorem initialize_vocabulary_lookup (rv : List Word) (hnd : rv.Nodup) (t : Word) :
    dget? (initialize_vocabulary rv).1 t = posOf t rv := by
  unfold initialize_vocabulary
  have henum : rv.enum = rv.enumFrom 0 := rfl
  rw [henum, enumFrom_foldl_dset rv hnd 0 [] t]
  cases hp : posOf t rv with
  | none => rfl
  | some k => simp

end DataUtils

namespace DataUtils

theorem vocabAddWord_keys_nodup (d : List (Word × Nat)) (w : Word)
    (h : (dkeys d).Nodup) : (dkeys (vocabAddWord d w)).Nodup := by
  unfold vocabAddWord
  cases dget? d w with
  | some c => exact dkeys_nodup_dset d w _ h
  | none => exact dkeys_nodup_dset d w _ h

theorem vocabCounts_keys_nodup (lines : List Word)
    (tokenizer : Option (Word → List Word)) (normalize_digits : Bool) :
    (dkeys (vocabCounts lines tokenizer normalize_digits)).Nodup := by
  unfold vocabCounts
  have hinit : (dkeys ([] : List (Word × Nat))).Nodup := by simp [dkeys]
  generalize hd : ([] : List (Word × Nat)) = d0 at hinit ⊢
  clear hd
  induction lines generalizing d0 with
  | nil => exact hinit
  | cons l rest ih =>
    rw [List.foldl_cons]
    apply ih
    have : ∀ (ts : List Word) (d : List (Word × Nat)), (dkeys d).Nodup →
        (dkeys (ts.foldl (fun v w => vocabAddWord v (normKey normalize_digits w)) d)).Nodup := by
      intro ts
      induction ts with
      | nil => intro d hd; exact hd
      | cons w ws ihw =>
        intro d hd
        rw [List.foldl_cons]
        exact ihw _ (vocabAddWord_keys_nodup d _ hd)
    exact this (tokensOf tokenizer l) d0 hinit

theorem create_vocabulary_nodup (lines : List Word) (max : Nat)
    (tokenizer : Option (Word → List Word)) (normalize_digits : Bool)
    (hres : ∀ w ∈ dkeys (vocabCounts lines tokenizer normalize_digits), w ∉ START_VOCAB) :
    (create_vocabulary lines max tokenizer normalize_digits).Nodup := by
  have hkeys := vocabCounts_keys_nodup lines tokenizer normalize_digits
  have hperm := List.mergeSort_perm (dkeys (vocabCounts lines tokenizer normalize_digits))
    (byCountDesc (vocabCounts lines tokenizer normalize_digits))
  have hsorted : ((dkeys (vocabCounts lines tokenizer normalize_digits)).mergeSort
      (byCountDesc (vocabCounts lines tokenizer normalize_digits))).Nodup :=
    (hperm.nodup_iff).mpr hkeys
  have hstart : START_VOCAB.Nodup := by decide
  have hfull : (vocab_list_full lines tokenizer normalize_digits).Nodup := by
    unfold vocab_list_full
    refine hstart.append hsorted ?_
    intro a ha hb
    exact hres a (by
      have := hperm.mem_iff.mp hb
      exact this) ha
  unfold create_vocabulary
  by_cases h : max < (vocab_list_full lines tokenizer normalize_digits).length
  · simp only [h, if_true]
    exact hfull.sublist (List.take_sublist max _)
  · simp only [h, if_false]
    exact hfull

/-- Claim C2, amended: for every corpus whose (possibly digit-normalized)
tokens are all distinct from the four reserved symbols, the token-to-id
mapping loaded by `initialize_vocabulary` and the id-to-token list produced by
`create_vocabulary` are exact inverses: looking up the token at any index
returns that index, and any token mapped to an index is found at that index of
the list. -/
theorem claim_C2_vocab_inverse (lines : List Word) (max : Nat)
    (tokenizer : Option (Word → List Word)) (normalize_digits : Bool)
    (hres : ∀ w ∈ dkeys (vocabCounts lines tokenizer normalize_digits), w ∉ START_VOCAB) :
    (∀ i (hi : i < (create_vocabulary lines max tokenizer normalize_digits).length),
        dget? (initialize_vocabulary (create_vocabulary lines max tokenizer normalize_digits)).1
            ((create_vocabulary lines max tokenizer normalize_digits).get ⟨i, hi⟩) = some i)
    ∧ (∀ t i,
        dget? (initialize_vocabulary (create_vocabulary lines max tokenizer normalize_digits)).1 t
          = some i →
        (create_vocabulary lines max tokenizer normalize_digits).get? i = some t) := by
  have hnd := create_vocabulary_nodup lines max tokenizer normalize_digits hres
  constructor
  · intro i hi
    rw [initialize_vocabulary_lookup _ hnd]
    exact posOf_eq_some_of_get _ _ hnd i hi rfl
  · intro t i h
    rw [initialize_vocabulary_lookup _ hnd] at h
    exact get?_of_posOf t _ i h

theorem create_voc_pad : create_vocabulary [PAD] 10 none false = START_VOCAB ++ [PAD] := by
  unfold create_vocabulary vocab_list_full
  have hkeys : dkeys (vocabCounts [PAD] none false) = [PAD] := by decide
  rw [hkeys, List.mergeSort_singleton]
  decide

/-- Counterexample to claim C2 as stated: for the one-line corpus "_PAD" the
vocabulary file contains `_PAD` twice (line 0 and line 4); the loaded dict maps
`_PAD` to 4, so looking up the token found at index 0 does not return 0 — the
mapping and the list are not inverses of each other. -/
theorem claim_C2_counterexample :
    dget? (initialize_vocabulary (create_vocabulary [PAD] 10 none false)).1
        ((create_vocabulary [PAD] 10 none false).getD 0 noWord) ≠ some 0 := by
  rw [create_voc_pad]
  decide

theorem create_voc_aba : create_vocabulary [str ("a b a")] 6 none false
    = START_VOCAB ++ [str ("a"), str ("b")] := by
  unfold create_vocabulary vocab_list_full
  have hkeys : dkeys (vocabCounts [str ("a b a")] none false)
      = [str ("a"), str ("b")] := by decide
  rw [hkeys, List.mergeSort_of_sorted (by decide)]
  decide

/-- Witness for (amended) C2 at the corpus "a b a" with maxSize 6: the reserved
symbols are absent from the corpus, and the token mapped to id 4 is found at
index 4 of the vocabulary list. -/
theorem claim_C2_witness :
    (∀ w ∈ dkeys (vocabCounts [str ("a b a")] none false), w ∉ START_VOCAB)
    ∧ (create_vocabulary [str ("a b a")] 6 none false).get? 4 = some (str ("a")) := by
  refine ⟨by decide, ?_⟩
  refine (claim_C2_vocab_inverse [str ("a b a")] 6 none false (by decide)).2
    (str ("a")) 4 ?_
  rw [create_voc_aba]
  decide

end DataUtils

namespace DataUtils

/-- The stream of (possibly digit-normalized) tokens of the whole corpus, in a
single left-to-right scan. -/
def corpusTokens (lines : List Word) (tokenizer : Option (Word → List Word))
    (normalize_digits : Bool) : List Word :=
  ((lines.map (tokensOf tokenizer)).flatten).map (normKey normalize_digits)

/-- First-seen accumulation: append a token unless it was already seen. -/
def fsAppend (ks : List Word) (w : Word) : List Word :=
  if w ∈ ks then ks else ks ++ [w]

theorem dkeys_vocabAddWord (d : List (Word × Nat)) (w : Word) :
    dkeys (vocabAddWord d w) = fsAppend (dkeys d) w := by
  unfold vocabAddWord fsAppend
  cases hg : dget? d w with
  | some c =>
    have hm : dmem d w = true := by simp [dmem, hg]
    rw [dkeys_dset]
    simp [hm, (dmem_iff_mem_dkeys d w).mp hm]
  | none =>
    have hm : dmem d w = false := (dmem_eq_false_iff d w).mpr hg
    have hnm : w ∉ dkeys d := fun h => by
      rw [(dmem_iff_mem_dkeys d w).mpr h] at hm
      exact Bool.true_eq_false.mp hm
    rw [dkeys_dset]
    simp [hm, hnm]

theorem dkeys_tokensFold (normalize_digits : Bool) (ts : List Word) :
    ∀ d : List (Word × Nat),
      dkeys (ts.foldl (fun v w => vocabAddWord v (normKey normalize_digits w)) d)
        = (ts.map (normKey normalize_digits)).foldl fsAppend (dkeys d) := by
  induction ts with
  | nil => intro d; rfl
  | cons w ws ih =>
    intro d
    simp only [List.foldl_cons, List.map_cons]
    rw [ih, dkeys_vocabAddWord]

theorem dkeys_vocabCounts (lines : List Word) (tokenizer : Option (Word → List Word))
    (normalize_digits : Bool) :
    dkeys (vocabCounts lines tokenizer normalize_digits)
      = (corpusTokens lines tokenizer normalize_digits).foldl fsAppend [] := by
  unfold vocabCounts corpusTokens
  have hgen : ∀ (ls : List Word) (d : List (Word × Nat)),
      dkeys (ls.foldl
          (fun vocab line =>
            (tokensOf tokenizer line).foldl
              (fun v w => vocabAddWord v (normKey normalize_digits w)) vocab) d)
        = (((ls.map (tokensOf tokenizer)).flatten).map (normKey normalize_digits)).foldl
            fsAppend (dkeys d) := by
    intro ls
    induction ls with
    | nil => intro d; rfl
    | cons l rest ih =>
      intro d
      simp only [List.foldl_cons, List.map_cons, List.flatten_cons, List.map_append,
        List.foldl_append]
      rw [ih, dkeys_tokensFold]
  have := hgen lines []
  simpa [dkeys] using this

theorem toFinset_fsAppend_fold (ts : List Word) :
    ∀ acc : List Word, (ts.foldl fsAppend acc).toFinset = acc.toFinset ∪ ts.toFinset := by
  induction ts with
  | nil => intro acc; simp
  | cons w ts ih =>
    intro acc
    simp only [List.foldl_cons]
    rw [ih]
    unfold fsAppend
    by_cases hw : w ∈ acc
    · rw [if_pos hw]
      ext x
      simp only [Finset.mem_union, List.mem_toFinset, List.toFinset_cons, Finset.mem_insert]
      constructor
      · tauto
      · rintro (h | h | h)
        · exact Or.inl h
        · exact Or.inl (h ▸ hw)
        · exact Or.inr h
    · rw [if_neg hw]
      ext x
      simp only [Finset.mem_union, List.mem_toFinset, List.toFinset_append,
        List.toFinset_cons, Finset.mem_insert, List.mem_append, List.mem_singleton]
      tauto

theorem vocabCounts_length_distinct (lines : List Word)
    (tokenizer : Option (Word → List Word)) (normalize_digits : Bool) :
    (dkeys (vocabCounts lines tokenizer normalize_digits)).length
      = (corpusTokens lines tokenizer normalize_digits).toFinset.card := by
  rw [← List.toFinset_card_of_nodup (vocabCounts_keys_nodup lines tokenizer normalize_digits)]
  rw [dkeys_vocabCounts, toFinset_fsAppend_fold]
  simp

/-- Claim C6: for every corpus and every `maxSize ≥ 4`, the vocabulary built by
`create_vocabulary` has length exactly `min maxSize (4 + number of distinct
(possibly digit-normalized) corpus tokens)`, and its first four entries are
exactly `_PAD, _GO, _EOS, _UNK` in that order regardless of corpus content. -/
theorem claim_C6_truncation_invariant (lines : List Word) (max : Nat)
    (tokenizer : Option (Word → List Word)) (normalize_digits : Bool)
    (hmax : 4 ≤ max) :
    (create_vocabulary lines max tokenizer normalize_digits).length
      = min max (4 + (corpusTokens lines tokenizer normalize_digits).toFinset.card)
    ∧ (create_vocabulary lines max tokenizer normalize_digits).take 4 = START_VOCAB := by
  have hlen : (vocab_list_full lines tokenizer normalize_digits).length
      = 4 + (corpusTokens lines tokenizer normalize_digits).toFinset.card := by
    unfold vocab_list_full
    rw [List.length_append, List.length_mergeSort, vocabCounts_length_distinct]
    rfl
  have htake : (vocab_list_full lines tokenizer normalize_digits).take 4 = START_VOCAB := by
    unfold vocab_list_full
    exact List.take_left' rfl
  unfold create_vocabulary
  by_cases h : max < (vocab_list_full lines tokenizer normalize_digits).length
  · simp only [h, if_true]
    constructor
    · rw [List.length_take, hlen]
    · rw [List.take_take]
      have hm : min 4 max = 4 := by omega
      rw [hm, htake]
  · simp only [h, if_false]
    constructor
    · rw [hlen]
      omega
    · exact htake

/-- Witness for C6 at the corpus "a b a" with maxSize 5: the full list would
have 6 entries, the truncated vocabulary has `min 5 6 = 5`, and the reserved
symbols survive truncation. -/
theorem claim_C6_witness :
    (4 ≤ 5)
    ∧ (create_vocabulary [str ("a b a")] 5 none false).length
        = min 5 (4 + (corpusTokens [str ("a b a")] none false).toFinset.card)
    ∧ (create_vocabulary [str ("a b a")] 5 none false).take 4 = START_VOCAB :=
  ⟨by decide,
    (claim_C6_truncation_invariant [str ("a b a")] 5 none false (by decide)).1,
    (claim_C6_truncation_invariant [str ("a b a")] 5 none false (by decide)).2⟩

end DataUtils

namespace DataUtils

/-- Modelled from the specification's words: the sequence of first occurrences
of the tokens in a single left-to-right scan of the stream. -/
def scanFirstSeen : List Word → List Word
  | [] => []
  | w :: ws => w :: (scanFirstSeen ws).filter (fun x => x != w)

theorem foldl_fsAppend_eq (ts : List Word) :
    ∀ acc : List Word,
      ts.foldl fsAppend acc
        = acc ++ (scanFirstSeen ts).filter (fun x => decide (x ∉ acc)) := by
  induction ts with
  | nil => intro acc; simp [scanFirstSeen]
  | cons w ts ih =>
    intro acc
    simp only [List.foldl_cons, scanFirstSeen]
    by_cases hw : w ∈ acc
    · have hstep : fsAppend acc w = acc := by
        unfold fsAppend
        rw [if_pos hw]
      rw [hstep, ih acc]
      congr 1
      rw [List.filter_cons]
      have hwd : (decide (w ∉ acc)) = false := by simp [hw]
      rw [hwd]
      simp only [Bool.false_eq_true, if_false]
      rw [List.filter_filter]
      apply List.filter_congr
      intro x hx
      by_cases hxw : x = w
      · subst hxw
        simp [hw]
      · simp [hxw]
    · have hstep : fsAppend acc w = acc ++ [w] := by
        unfold fsAppend
        rw [if_neg hw]
      rw [hstep, ih (acc ++ [w])]
      rw [List.filter_cons]
      have hwd : (decide (w ∉ acc)) = true := by simp [hw]
      rw [hwd]
      simp only [if_true]
      rw [List.append_assoc]
      congr 1
      rw [List.singleton_append]
      congr 1
      rw [List.filter_filter]
      apply List.filter_congr
      intro x hx
      by_cases hxw : x = w
      · subst hxw
        simp
      · by_cases hxa : x ∈ acc <;> simp [hxw, hxa]

theorem dkeys_vocabCounts_scan (lines : List Word)
    (tokenizer : Option (Word → List Word)) (normalize_digits : Bool) :
    dkeys (vocabCounts lines tokenizer normalize_digits)
      = scanFirstSeen (corpusTokens lines tokenizer normalize_digits) := by
  rw [dkeys_vocabCounts, foldl_fsAppend_eq]
  simp

end DataUtils

namespace DataUtils

theorem mem_of_posOf_some (t : Word) :
    ∀ (l : List Word) (k : Nat), posOf t l = some k → t ∈ l := by
  intro l
  induction l with
  | nil => intro k h; simp [posOf] at h
  | cons w ws ih =>
    intro k h
    by_cases hw : w = t
    · exact hw ▸ List.mem_cons_self w ws
    · simp only [posOf, hw, if_false] at h
      rcases Option.map_eq_some'.mp h with ⟨k', hk', _⟩
      exact List.mem_cons_of_mem w (ih k' hk')

theorem pair_sublist_of_posOf (a b : Word) :
    ∀ (l : List Word) (pa pb : Nat), posOf a l = some pa → posOf b l = some pb →
      pa < pb → List.Sublist [a, b] l := by
  intro l
  induction l with
  | nil => intro pa pb ha _ _; simp [posOf] at ha
  | cons w ws ih =>
    intro pa pb ha hb hlt
    by_cases hwa : w = a
    · subst hwa
      by_cases hwb : w = b
      · rw [posOf, if_pos hwb] at hb
        have : pb = 0 := by simpa using hb.symm
        omega
      · simp only [posOf, hwb, if_false] at hb
        rcases Option.map_eq_some'.mp hb with ⟨k, hk, _⟩
        exact (List.singleton_sublist.mpr (mem_of_posOf_some b ws k hk)).cons₂ w
    · simp only [posOf, hwa, if_false] at ha
      rcases Option.map_eq_some'.mp ha with ⟨ka, hka, hka1⟩
      by_cases hwb : w = b
      · rw [posOf, if_pos hwb] at hb
        have : pb = 0 := by simpa using hb.symm
        omega
      · simp only [posOf, hwb, if_false] at hb
        rcases Option.map_eq_some'.mp hb with ⟨kb, hkb, hkb1⟩
        exact (ih ka kb hka hkb (by omega)).cons w

theorem posOf_lt_of_pair_sublist (a b : Word) :
    ∀ (l : List Word), l.Nodup → List.Sublist [a, b] l →
      ∀ pa pb, posOf a l = some pa → posOf b l = some pb → pa < pb := by
  intro l
  induction l with
  | nil =>
    intro _ hsub
    exact absurd (hsub.length_le) (by simp)
  | cons w ws ih =>
    intro hnd hsub pa pb ha hb
    have hnd0 : w ∉ ws ∧ ws.Nodup := List.nodup_cons.mp hnd
    cases hsub with
    | cons _ hsub' =>
      have hma : a ∈ ws := hsub'.subset (List.mem_cons_self a [b])
      have hmb : b ∈ ws := hsub'.subset (List.mem_cons_of_mem a (List.mem_cons_self b []))
      have hwa : ¬ w = a := fun hh => hnd0.1 (hh ▸ hma)
      have hwb : ¬ w = b := fun hh => hnd0.1 (hh ▸ hmb)
      simp only [posOf, hwa, hwb, if_false] at ha hb
      rcases Option.map_eq_some'.mp ha with ⟨ka, hka, hka1⟩
      rcases Option.map_eq_some'.mp hb with ⟨kb, hkb, hkb1⟩
      have := ih hnd0.2 hsub' ka kb hka hkb
      omega
    | cons₂ _ hsub' =>
      have hmb : b ∈ ws := hsub'.subset (List.mem_cons_self b [])
      have hab2 : ¬ a = b := fun hh => hnd0.1 (hh ▸ hmb)
      rw [posOf, if_pos rfl] at ha
      have hpa : pa = 0 := by simpa using ha.symm
      simp only [posOf, hab2, if_false] at hb
      rcases Option.map_eq_some'.mp hb with ⟨kb, hkb, hkb1⟩
      omega

theorem byCountDesc_trans (v : List (Word × Nat)) :
    ∀ (a b c : Word), byCountDesc v a b → byCountDesc v b c → byCountDesc v a c := by
  intro a b c hab hbc
  simp only [byCountDesc, decide_eq_true_eq] at *
  omega

theorem byCountDesc_total (v : List (Word × Nat)) :
    ∀ (a b : Word), byCountDesc v a b || byCountDesc v b a := by
  intro a b
  simp only [byCountDesc]
  rcases Nat.le_total (dgetD v a 0) (dgetD v b 0) with h | h <;> simp [h]

/-- The sorted non-reserved region of the vocabulary, over an explicit
dictionary iteration order (see `create_vocabulary_iter`). -/
def sortedKeys_iter (vocab : List (Word × Nat)) (keyOrder : List Word) : List Word :=
  keyOrder.mergeSort (byCountDesc vocab)

/-- Untruncated vocabulary list over an explicit dictionary iteration order. -/
def vocab_list_full_iter (vocab : List (Word × Nat)) (keyOrder : List Word) : List Word :=
  START_VOCAB ++ sortedKeys_iter vocab keyOrder

/-- Modelled from the spec (section 9): this source targets Python 2 (`xrange`),
where dictionary iteration order is implementation-defined (hash-table order),
so the sequence in which `sorted(vocab, key=vocab.get, reverse=True)` receives
the keys is made an explicit parameter `keyOrder`, ranging over the
permutations of the distinct tokens; the insertion-ordered `dkeys vocab` is
one legal instance, and `create_vocabulary` is exactly that instance
(`create_vocabulary_eq_iter`). -/
def create_vocabulary_iter (vocab : List (Word × Nat)) (keyOrder : List Word)
    (max_vocabulary_size : Nat) : List Word :=
  if max_vocabulary_size < (vocab_list_full_iter vocab keyOrder).length then
    (vocab_list_full_iter vocab keyOrder).take max_vocabulary_size
  else vocab_list_full_iter vocab keyOrder

theorem create_vocabulary_eq_iter (lines : List Word) (max : Nat)
    (tokenizer : Option (Word → List Word)) (normalize_digits : Bool) :
    create_vocabulary lines max tokenizer normalize_digits
      = create_vocabulary_iter (vocabCounts lines tokenizer normalize_digits)
          (dkeys (vocabCounts lines tokenizer normalize_digits)) max := rfl

theorem create_voc_iter_length_le (vocab : List (Word × Nat)) (keyOrder : List Word)
    (max : Nat) :
    (create_vocabulary_iter vocab keyOrder max).length
      ≤ (vocab_list_full_iter vocab keyOrder).length := by
  unfold create_vocabulary_iter
  by_cases h : max < (vocab_list_full_iter vocab keyOrder).length
  · simp only [h, if_true, List.length_take]
    omega
  · simp [h]

theorem vocab_list_full_iter_length (vocab : List (Word × Nat)) (keyOrder : List Word) :
    (vocab_list_full_iter vocab keyOrder).length
      = 4 + (sortedKeys_iter vocab keyOrder).length := by
  unfold vocab_list_full_iter
  rw [List.length_append]
  rfl

theorem create_voc_iter_getElem? (vocab : List (Word × Nat)) (keyOrder : List Word)
    (max : Nat) (i : Nat)
    (hi : i < (create_vocabulary_iter vocab keyOrder max).length)
    (h4 : 4 ≤ i) :
    (create_vocabulary_iter vocab keyOrder max)[i]?
      = (sortedKeys_iter vocab keyOrder)[i - 4]? := by
  have hfull : (vocab_list_full_iter vocab keyOrder)[i]?
      = (sortedKeys_iter vocab keyOrder)[i - 4]? := by
    unfold vocab_list_full_iter
    rw [List.getElem?_append_right (by simpa using h4)]
    rfl
  have hcv := hi
  unfold create_vocabulary_iter at hcv ⊢
  by_cases h : max < (vocab_list_full_iter vocab keyOrder).length
  · simp only [h, if_true] at hcv ⊢
    have him : i < max := by
      simp only [List.length_take] at hcv
      omega
    rw [List.getElem?_take_of_lt him, hfull]
  · simp only [h, if_false] at hcv ⊢
    exact hfull

theorem create_voc_iter_get (vocab : List (Word × Nat)) (keyOrder : List Word)
    (max : Nat) (i : Nat)
    (hi : i < (create_vocabulary_iter vocab keyOrder max).length)
    (h4 : 4 ≤ i)
    (hs : i - 4 < (sortedKeys_iter vocab keyOrder).length) :
    (create_vocabulary_iter vocab keyOrder max).get ⟨i, hi⟩
      = (sortedKeys_iter vocab keyOrder).get ⟨i - 4, hs⟩ := by
  have h1 : (create_vocabulary_iter vocab keyOrder max)[i]?
      = some ((create_vocabulary_iter vocab keyOrder max).get ⟨i, hi⟩) := by
    simp [List.getElem?_eq_getElem hi]
  have h2 : (sortedKeys_iter vocab keyOrder)[i - 4]?
      = some ((sortedKeys_iter vocab keyOrder).get ⟨i - 4, hs⟩) := by
    simp [List.getElem?_eq_getElem hs]
  have := create_voc_iter_getElem? vocab keyOrder max i hi h4
  rw [h1, h2] at this
  exact Option.some.inj this

theorem sortedKeys_iter_bound (vocab : List (Word × Nat)) (keyOrder : List Word)
    (max : Nat) (i : Nat)
    (hi : i < (create_vocabulary_iter vocab keyOrder max).length)
    (h4 : 4 ≤ i) :
    i - 4 < (sortedKeys_iter vocab keyOrder).length := by
  have h1 := create_voc_iter_length_le vocab keyOrder max
  have h2 := vocab_list_full_iter_length vocab keyOrder
  omega

theorem sortedKeys_iter_nodup (vocab : List (Word × Nat)) (keyOrder : List Word)
    (hnd : keyOrder.Nodup) : (sortedKeys_iter vocab keyOrder).Nodup :=
  ((List.mergeSort_perm _ _).nodup_iff).mpr hnd

/-- Counterexample to claim C7 as stated: for the corpus "a b", the tokens "a"
and "b" have equal counts and "a" is first-seen before "b", and `[b, a]` is a
legal Python 2 dictionary iteration order (a permutation of the keys); under
that order the built vocabulary places "b" at index 4 and "a" at index 5, so
tokens with equal counts are not ordered by first-seen position. -/
theorem claim_C7_counterexample :
    List.Perm [str ("b"), str ("a")] (dkeys (vocabCounts [str ("a b")] none false))
    ∧ scanFirstSeen (corpusTokens [str ("a b")] none false) = [str ("a"), str ("b")]
    ∧ dgetD (vocabCounts [str ("a b")] none false) (str ("a")) 0
        = dgetD (vocabCounts [str ("a b")] none false) (str ("b")) 0
    ∧ (create_vocabulary_iter (vocabCounts [str ("a b")] none false)
        [str ("b"), str ("a")] 10).get? 4 = some (str ("b"))
    ∧ (create_vocabulary_iter (vocabCounts [str ("a b")] none false)
        [str ("b"), str ("a")] 10).get? 5 = some (str ("a")) := by
  have hv : create_vocabulary_iter (vocabCounts [str ("a b")] none false)
      [str ("b"), str ("a")] 10 = START_VOCAB ++ [str ("b"), str ("a")] := by
    unfold create_vocabulary_iter vocab_list_full_iter sortedKeys_iter
    rw [List.mergeSort_of_sorted (by decide)]
    decide
  refine ⟨?_, by decide, by decide, ?_, ?_⟩
  · have hk : dkeys (vocabCounts [str ("a b")] none false)
        = [str ("a"), str ("b")] := by decide
    rw [hk]
    exact List.Perm.swap (str ("a")) (str ("b")) []
  · rw [hv]
    decide
  · rw [hv]
    decide

/-- Claim C7, amended: the concrete `create_vocabulary` is the instance of the
iteration-order-parametric builder at the insertion order, whose key order is
the first-seen scan order of the corpus; for EVERY legal dictionary iteration
order (any permutation of the distinct tokens), the non-reserved tokens of the
built vocabulary are ordered by strictly descending corpus frequency — a
strictly larger count forces a strictly smaller index — and tokens with equal
counts are ordered by their position in the iteration order (the sort is
stable).  First-seen tie order therefore holds exactly when the dictionary
iterates in insertion order, which Python 2 does not guarantee. -/
theorem claim_C7_frequency_ranking (lines : List Word) (max : Nat)
    (tokenizer : Option (Word → List Word)) (normalize_digits : Bool)
    (keyOrder : List Word) (hnd : keyOrder.Nodup)
    (hperm : List.Perm keyOrder (dkeys (vocabCounts lines tokenizer normalize_digits))) :
    create_vocabulary lines max tokenizer normalize_digits
      = create_vocabulary_iter (vocabCounts lines tokenizer normalize_digits)
          (dkeys (vocabCounts lines tokenizer normalize_digits)) max
    ∧ dkeys (vocabCounts lines tokenizer normalize_digits)
        = scanFirstSeen (corpusTokens lines tokenizer normalize_digits)
    ∧ (∀ (i j : Nat)
        (hi : i < (create_vocabulary_iter (vocabCounts lines tokenizer normalize_digits)
            keyOrder max).length)
        (hj : j < (create_vocabulary_iter (vocabCounts lines tokenizer normalize_digits)
            keyOrder max).length),
        4 ≤ i → 4 ≤ j →
        dgetD (vocabCounts lines tokenizer normalize_digits)
            ((create_vocabulary_iter (vocabCounts lines tokenizer normalize_digits)
              keyOrder max).get ⟨j, hj⟩) 0
          < dgetD (vocabCounts lines tokenizer normalize_digits)
            ((create_vocabulary_iter (vocabCounts lines tokenizer normalize_digits)
              keyOrder max).get ⟨i, hi⟩) 0 →
        i < j)
    ∧ (∀ (i j : Nat)
        (hi : i < (create_vocabulary_iter (vocabCounts lines tokenizer normalize_digits)
            keyOrder max).length)
        (hj : j < (create_vocabulary_iter (vocabCounts lines tokenizer normalize_digits)
            keyOrder max).length),
        4 ≤ i → 4 ≤ j →
        dgetD (vocabCounts lines tokenizer normalize_digits)
            ((create_vocabulary_iter (vocabCounts lines tokenizer normalize_digits)
              keyOrder max).get ⟨i, hi⟩) 0
          = dgetD (vocabCounts lines tokenizer normalize_digits)
            ((create_vocabulary_iter (vocabCounts lines tokenizer normalize_digits)
              keyOrder max).get ⟨j, hj⟩) 0 →
        ∀ pi pj,
          posOf ((create_vocabulary_iter (vocabCounts lines tokenizer normalize_digits)
              keyOrder max).get ⟨i, hi⟩) keyOrder = some pi →
          posOf ((create_vocabulary_iter (vocabCounts lines tokenizer normalize_digits)
              keyOrder max).get ⟨j, hj⟩) keyOrder = some pj →
          pi < pj → i < j) := by
  refine ⟨create_vocabulary_eq_iter lines max tokenizer normalize_digits,
    dkeys_vocabCounts_scan lines tokenizer normalize_digits, ?_, ?_⟩
  · intro i j hi hj h4i h4j hlt
    by_contra hij
    push_neg at hij
    have hsi := sortedKeys_iter_bound (vocabCounts lines tokenizer normalize_digits)
      keyOrder max i hi h4i
    have hsj := sortedKeys_iter_bound (vocabCounts lines tokenizer normalize_digits)
      keyOrder max j hj h4j
    rw [create_voc_iter_get (vocabCounts lines tokenizer normalize_digits) keyOrder max
        i hi h4i hsi,
      create_voc_iter_get (vocabCounts lines tokenizer normalize_digits) keyOrder max
        j hj h4j hsj] at hlt
    rcases Nat.lt_or_ge j i with hji | hji
    · have hp := List.pairwise_iff_get.mp
        (List.sorted_mergeSort
          (byCountDesc_trans (vocabCounts lines tokenizer normalize_digits))
          (byCountDesc_total (vocabCounts lines tokenizer normalize_digits))
          keyOrder)
        ⟨j - 4, hsj⟩ ⟨i - 4, hsi⟩ (by simp; omega)
      simp only [byCountDesc, decide_eq_true_eq] at hp
      have hp2 : dgetD (vocabCounts lines tokenizer normalize_digits)
          ((sortedKeys_iter (vocabCounts lines tokenizer normalize_digits) keyOrder).get
            ⟨i - 4, hsi⟩) 0
          ≤ dgetD (vocabCounts lines tokenizer normalize_digits)
          ((sortedKeys_iter (vocabCounts lines tokenizer normalize_digits) keyOrder).get
            ⟨j - 4, hsj⟩) 0 := hp
      omega
    · have : i = j := by omega
      subst this
      exact absurd hlt (lt_irrefl _)
  · intro i j hi hj h4i h4j heq pi pj hpi hpj hfs
    have hsi := sortedKeys_iter_bound (vocabCounts lines tokenizer normalize_digits)
      keyOrder max i hi h4i
    have hsj := sortedKeys_iter_bound (vocabCounts lines tokenizer normalize_digits)
      keyOrder max j hj h4j
    have hgi := create_voc_iter_get (vocabCounts lines tokenizer normalize_digits)
      keyOrder max i hi h4i hsi
    have hgj := create_voc_iter_get (vocabCounts lines tokenizer normalize_digits)
      keyOrder max j hj h4j hsj
    have hab : byCountDesc (vocabCounts lines tokenizer normalize_digits)
        ((create_vocabulary_iter (vocabCounts lines tokenizer normalize_digits)
          keyOrder max).get ⟨i, hi⟩)
        ((create_vocabulary_iter (vocabCounts lines tokenizer normalize_digits)
          keyOrder max).get ⟨j, hj⟩) = true := by
      simp only [byCountDesc, decide_eq_true_eq]
      omega
    have hsubk := pair_sublist_of_posOf _ _ _ pi pj hpi hpj hfs
    have hsubs := List.pair_sublist_mergeSort
      (byCountDesc_trans (vocabCounts lines tokenizer normalize_digits))
      (byCountDesc_total (vocabCounts lines tokenizer normalize_digits)) hab hsubk
    have hnds := sortedKeys_iter_nodup (vocabCounts lines tokenizer normalize_digits)
      keyOrder hnd
    have hposi : posOf ((create_vocabulary_iter (vocabCounts lines tokenizer
          normalize_digits) keyOrder max).get ⟨i, hi⟩)
        (sortedKeys_iter (vocabCounts lines tokenizer normalize_digits) keyOrder)
        = some (i - 4) :=
      posOf_eq_some_of_get _ _ hnds (i - 4) hsi hgi.symm
    have hposj : posOf ((create_vocabulary_iter (vocabCounts lines tokenizer
          normalize_digits) keyOrder max).get ⟨j, hj⟩)
        (sortedKeys_iter (vocabCounts lines tokenizer normalize_digits) keyOrder)
        = some (j - 4) :=
      posOf_eq_some_of_get _ _ hnds (j - 4) hsj hgj.symm
    have hlt := posOf_lt_of_pair_sublist _ _ _ hnds hsubs (i - 4) (j - 4) hposi hposj
    omega

end DataUtils

namespace DataUtils

theorem create_voc_iter_ababc :
    create_vocabulary_iter (vocabCounts [str ("a b a b c")] none false)
      [str ("a"), str ("b"), str ("c")] 10
      = START_VOCAB ++ [str ("a"), str ("b"), str ("c")] := by
  unfold create_vocabulary_iter vocab_list_full_iter sortedKeys_iter
  rw [List.mergeSort_of_sorted (by decide)]
  decide

/-- Witness for (amended) C7 at the corpus "a b a b c" with iteration order
`[a, b, c]` (a nodup permutation of the keys) and maxSize 10: token "c"
(count 1) sits at index 6 and token "a" (count 2) at index 4; the strictly
larger count forces the strictly smaller index. -/
theorem claim_C7_witness :
    dgetD (vocabCounts [str ("a b a b c")] none false)
        ((create_vocabulary_iter (vocabCounts [str ("a b a b c")] none false)
          [str ("a"), str ("b"), str ("c")] 10).get
          ⟨6, by rw [create_voc_iter_ababc]; decide⟩) 0
      < dgetD (vocabCounts [str ("a b a b c")] none false)
        ((create_vocabulary_iter (vocabCounts [str ("a b a b c")] none false)
          [str ("a"), str ("b"), str ("c")] 10).get
          ⟨4, by rw [create_voc_iter_ababc]; decide⟩) 0
    ∧ (4 : Nat) < 6 := by
  have h4 : (4 : Nat) < (create_vocabulary_iter
      (vocabCounts [str ("a b a b c")] none false)
      [str ("a"), str ("b"), str ("c")] 10).length := by
    rw [create_voc_iter_ababc]
    decide
  have h6 : (6 : Nat) < (create_vocabulary_iter
      (vocabCounts [str ("a b a b c")] none false)
      [str ("a"), str ("b"), str ("c")] 10).length := by
    rw [create_voc_iter_ababc]
    decide
  have hv6q : (create_vocabulary_iter (vocabCounts [str ("a b a b c")] none false)
      [str ("a"), str ("b"), str ("c")] 10).get? 6 = some (str ("c")) := by
    rw [create_voc_iter_ababc]
    decide
  have hv4q : (create_vocabulary_iter (vocabCounts [str ("a b a b c")] none false)
      [str ("a"), str ("b"), str ("c")] 10).get? 4 = some (str ("a")) := by
    rw [create_voc_iter_ababc]
    decide
  have hv6 : (create_vocabulary_iter (vocabCounts [str ("a b a b c")] none false)
      [str ("a"), str ("b"), str ("c")] 10).get ⟨6, h6⟩ = str ("c") := by
    have h := List.get?_eq_get h6
    rw [hv6q] at h
    exact (Option.some.inj h).symm
  have hv4 : (create_vocabulary_iter (vocabCounts [str ("a b a b c")] none false)
      [str ("a"), str ("b"), str ("c")] 10).get ⟨4, h4⟩ = str ("a") := by
    have h := List.get?_eq_get h4
    rw [hv4q] at h
    exact (Option.some.inj h).symm
  have hkeys : dkeys (vocabCounts [str ("a b a b c")] none false)
      = [str ("a"), str ("b"), str ("c")] := by decide
  have hperm : List.Perm [str ("a"), str ("b"), str ("c")]
      (dkeys (vocabCounts [str ("a b a b c")] none false)) := by
    rw [hkeys]
  have hcount : dgetD (vocabCounts [str ("a b a b c")] none false)
      ((create_vocabulary_iter (vocabCounts [str ("a b a b c")] none false)
        [str ("a"), str ("b"), str ("c")] 10).get ⟨6, h6⟩) 0
      < dgetD (vocabCounts [str ("a b a b c")] none false)
      ((create_vocabulary_iter (vocabCounts [str ("a b a b c")] none false)
        [str ("a"), str ("b"), str ("c")] 10).get ⟨4, h4⟩) 0 := by
    rw [hv6, hv4]
    decide
  exact ⟨hcount,
    (claim_C7_frequency_ranking [str ("a b a b c")] 10 none false
      [str ("a"), str ("b"), str ("c")] (by decide) hperm).2.2.1 4 6 h4 h6
      (by decide) (by decide) hcount⟩

end DataUtils
